import Mathlib

/-!
# Star-history reconstruction engine: shallow embedding

Verification development for the star-history reconstruction engine in
`src/lib/github-api.ts`.  The embedding keeps the source's structure:

* Timestamps are epoch milliseconds (`Int`), with the proleptic Gregorian
  civil calendar in UTC (the deployment's locale); `Date#getFullYear` and
  `new Date(year, 0, 1)` are embedded through the standard civil-from-days /
  days-from-civil algorithms — including ECMAScript's two-digit-year rule,
  by which the `Date` constructor reads a year argument in 0–99 as
  `1900 + year` — and `date.setDate(date.getDate() + 7)` is an exact
  `7 * 24 * 60 * 60 * 1000` ms step.
* JavaScript `number` arithmetic is idealised as exact rational arithmetic
  (`ℚ`), with decimal literals (`0.05`, `0.1`, `0.95`, `1.1`) read as the
  rationals they denote and `Math.floor` as `Int.floor`.  Star values are
  integers throughout the source, so series values are embedded as `ℤ`.
* `Math.pow(x, 1.5)` is transcendental, so the estimation path takes the
  function it denotes as an explicit parameter `pow15 : ℚ → ℚ`; theorems
  quantify over it, constraining only the values the source actually pins
  down (`Math.pow(0, 1.5) = 0`), hence hold for the real power function.
* Display-only fields (`displayDate`, the ISO `date` string) are derived
  formatting of the point's timestamp and are not modelled; a series point
  is its timestamp together with its star count.
-/

/-- Milliseconds in one week: `7 * 24 * 60 * 60 * 1000`. -/
def msPerWeek : Int := 604800000

/-- Milliseconds in one day: `24 * 60 * 60 * 1000`. -/
def msPerDay : Int := 86400000

/-- Civil (proleptic Gregorian) calendar year containing a given day number
(days since 1970-01-01).  Standard civil-from-days computation, as performed
by `Date#getFullYear` in UTC. -/
def civilYearOfDay (z : Int) : Int :=
  let z' := z + 719468
  let era := z'.fdiv 146097
  let doe := z' - era * 146097
  let yoe := (doe - doe.fdiv 1460 + doe.fdiv 36524 - doe.fdiv 146096).fdiv 365
  let y := yoe + era * 400
  let doy := doe - (365 * yoe + yoe.fdiv 4 - yoe.fdiv 100)
  let mp := (5 * doy + 2).fdiv 153
  let m := if mp < 10 then mp + 3 else mp - 9
  if m ≤ 2 then y + 1 else y

/-- Day number (days since 1970-01-01) of January 1 of a given civil year:
`new Date(year, 0, 1)` in UTC.  Standard days-from-civil computation
specialised to month 1, day 1. -/
def daysFromCivilJan1 (y : Int) : Int :=
  let y' := y - 1
  let era := y'.fdiv 400
  let yoe := y' - era * 400
  let doe := yoe * 365 + yoe.fdiv 4 - yoe.fdiv 100 + 306
  era * 146097 + doe - 719468

/-- `date.getFullYear()` for an epoch-millisecond timestamp (UTC). -/
def yearMs (t : Int) : Int := civilYearOfDay (t.fdiv msPerDay)

/-- ECMAScript `MakeFullYear`: the `Date` constructor maps a year argument
in 0–99 to `1900 + year`; all other integral years pass through. -/
def makeFullYear (y : Int) : Int := if 0 ≤ y ∧ y ≤ 99 then y + 1900 else y

/-- `new Date(year, 0, 1).getTime()` (UTC), including the constructor's
two-digit-year rule: for `0 ≤ year ≤ 99` this is January 1 of
`1900 + year`, not of `year`. -/
def jan1Ms (y : Int) : Int := daysFromCivilJan1 (makeFullYear y) * msPerDay

/-- The 7-day bucket index used by `getWeekKey`:
`Math.floor((date.getTime() - new Date(year, 0, 1).getTime()) / (7*24*60*60*1000))`.
Note `year` here is `getFullYear()` of the timestamp (no two-digit rule on
reading), but the `Date` constructor it is passed back into does apply one. -/
def weekIdx (t : Int) : Int := (t - jan1Ms (yearMs t)).fdiv msPerWeek

/-- The spec's `weekIndexWithinYear = floor((timestamp - Jan1OfYear) / 7days)`
(§3 WeekBucket), with `Jan1OfYear` the actual January 1 of the timestamp's
calendar year — comparison definition following the spec's words, to be held
against the code's `weekIdx`.  The two agree exactly when the calendar year
lies outside 0–99. -/
def specWeekIdx (t : Int) : Int :=
  (t - daysFromCivilJan1 (yearMs t) * msPerDay).fdiv msPerWeek

/-- Fuel-indexed decimal-digit rendering (structural so that the kernel can
evaluate it; the fuel is an upper bound on the number of digits). -/
def natDigsF : Nat → Nat → List Char
  | 0, n => [Nat.digitChar n]
  | f + 1, n =>
    if n < 10 then [Nat.digitChar n]
    else natDigsF f (n / 10) ++ [Nat.digitChar (n % 10)]

/-- Decimal digit characters of a natural number, most significant first:
the characters of JavaScript's `${n}` for a non-negative integer. -/
def natDigs (n : Nat) : List Char := natDigsF n n

theorem natDigsF_eq : ∀ f g n : Nat, n ≤ f → n ≤ g → natDigsF f n = natDigsF g n := by
  intro f
  induction f with
  | zero =>
    intro g n hf _
    interval_cases n
    cases g <;> simp [natDigsF]
  | succ f ih =>
    intro g n hf hg
    cases g with
    | zero =>
      interval_cases n
      simp [natDigsF]
    | succ g =>
      show natDigsF (f + 1) n = natDigsF (g + 1) n
      by_cases h : n < 10
      · simp [natDigsF, h]
      · have hd : n / 10 < n := Nat.div_lt_self (by omega) (by omega)
        simp only [natDigsF, if_neg h]
        rw [ih g (n / 10) (by omega) (by omega)]

/-- The recursion `natDigs` actually performs. -/
theorem natDigs_eq (n : Nat) :
    natDigs n = if n < 10 then [Nat.digitChar n]
                else natDigs (n / 10) ++ [Nat.digitChar (n % 10)] := by
  by_cases h : n < 10
  · rw [if_pos h]
    unfold natDigs
    cases n with
    | zero => simp [natDigsF]
    | succ m => simp [natDigsF, h]
  · rw [if_neg h]
    unfold natDigs
    cases n with
    | zero => omega
    | succ m =>
      simp only [natDigsF, if_neg h]
      have hd : (m + 1) / 10 < m + 1 := Nat.div_lt_self (by omega) (by omega)
      rw [natDigsF_eq m ((m + 1) / 10) ((m + 1) / 10) (by omega) le_rfl]

/-- Characters of JavaScript's `${n}` for an integer (decimal digits with a
leading minus sign when negative). -/
def intChars (n : Int) : List Char :=
  if n < 0 then '-' :: natDigs n.natAbs else natDigs n.natAbs

/-- `getWeekKey(date)`: the string `` `${year}-W${week}` `` (template-literal
concatenation is concatenation of the character lists). -/
def getWeekKey (t : Int) : String :=
  ⟨intChars (yearMs t) ++ '-' :: 'W' :: intChars (weekIdx t)⟩

-- Sanity: 1970-01-01T00:00Z is week 0 of 1970; 2023-01-01T00:00Z week 0 of 2023.
example : getWeekKey 0 = "1970-W0" := by decide
example : getWeekKey 1672531200000 = "2023-W0" := by decide

/-! ## Injectivity of the week-key encoding -/

/-- Decimal value of a digit-character list (left fold), used to invert
`natDigs`. -/
def digsVal (l : List Char) : Nat :=
  l.foldl (fun a c => a * 10 + (c.toNat - 48)) 0

theorem digsVal_append_digit (l : List Char) (c : Char) :
    digsVal (l ++ [c]) = digsVal l * 10 + (c.toNat - 48) := by
  simp [digsVal, List.foldl_append]

theorem digitChar_toNat {d : Nat} (h : d < 10) :
    (Nat.digitChar d).toNat - 48 = d := by
  interval_cases d <;> decide

theorem digsVal_natDigs (n : Nat) : digsVal (natDigs n) = n := by
  induction n using Nat.strong_induction_on with
  | _ n ih =>
    rw [natDigs_eq]
    by_cases h : n < 10
    · simp only [if_pos h]
      show 0 * 10 + ((Nat.digitChar n).toNat - 48) = n
      rw [digitChar_toNat h]; omega
    · simp only [if_neg h]
      rw [digsVal_append_digit, ih (n / 10) (Nat.div_lt_self (by omega) (by omega)),
        digitChar_toNat (Nat.mod_lt n (by omega))]
      omega

theorem natDigs_inj {m n : Nat} (h : natDigs m = natDigs n) : m = n := by
  have := digsVal_natDigs m
  rw [h, digsVal_natDigs] at this
  omega

theorem natDigs_ne_nil (n : Nat) : natDigs n ≠ [] := by
  rw [natDigs_eq]
  split <;> simp

theorem digitChar_ne_dash {d : Nat} (h : d < 10) : Nat.digitChar d ≠ '-' := by
  interval_cases d <;> decide

theorem mem_natDigs_ne_dash (n : Nat) : ∀ c ∈ natDigs n, c ≠ '-' := by
  induction n using Nat.strong_induction_on with
  | _ n ih =>
    intro c hc
    rw [natDigs_eq] at hc
    by_cases h : n < 10
    · simp only [if_pos h, List.mem_singleton] at hc
      subst hc; exact digitChar_ne_dash h
    · simp only [if_neg h, List.mem_append, List.mem_singleton] at hc
      rcases hc with hc | hc
      · exact ih (n / 10) (Nat.div_lt_self (by omega) (by omega)) c hc
      · subst hc; exact digitChar_ne_dash (Nat.mod_lt n (by omega))

/-- Lists that contain no `'-'` followed by a `'-'`-headed tail concatenate
injectively: splitting at the first dash is unambiguous. -/
theorem append_dash_inj :
    ∀ (a c : List Char) (b d : List Char), (∀ x ∈ a, x ≠ '-') → (∀ x ∈ c, x ≠ '-') →
      a ++ '-' :: b = c ++ '-' :: d → a = c ∧ b = d := by
  intro a
  induction a with
  | nil =>
    intro c b d _ hc h
    cases c with
    | nil => simpa using h
    | cons x c' =>
      simp only [List.nil_append, List.cons_append, List.cons.injEq] at h
      exact absurd h.1.symm (hc x (by simp))
  | cons x a' ih =>
    intro c b d ha hc h
    cases c with
    | nil =>
      simp only [List.cons_append, List.nil_append, List.cons.injEq] at h
      exact absurd h.1 (ha x (by simp))
    | cons y c' =>
      simp only [List.cons_append, List.cons.injEq] at h
      obtain ⟨hxy, h'⟩ := h
      obtain ⟨h1, h2⟩ := ih c' b d (fun z hz => ha z (by simp [hz]))
        (fun z hz => hc z (by simp [hz])) h'
      exact ⟨by rw [hxy, h1], h2⟩

theorem intChars_no_dash {n : Int} (h : 0 ≤ n) : ∀ c ∈ intChars n, c ≠ '-' := by
  unfold intChars
  rw [if_neg (by omega)]
  exact mem_natDigs_ne_dash n.natAbs

theorem intChars_inj {m n : Int} (h : intChars m = intChars n) : m = n := by
  unfold intChars at h
  by_cases hm : m < 0 <;> by_cases hn : n < 0
  · rw [if_pos hm, if_pos hn] at h
    have := natDigs_inj (List.cons_injective h)
    omega
  · rw [if_pos hm, if_neg hn] at h
    cases hnd : natDigs n.natAbs with
    | nil => exact absurd hnd (natDigs_ne_nil _)
    | cons c cs =>
      rw [hnd] at h
      have hc : c ∈ natDigs n.natAbs := by rw [hnd]; simp
      exact absurd (List.cons.inj h).1.symm (mem_natDigs_ne_dash n.natAbs c hc)
  · rw [if_neg hm, if_pos hn] at h
    cases hnd : natDigs m.natAbs with
    | nil => exact absurd hnd (natDigs_ne_nil _)
    | cons c cs =>
      rw [hnd] at h
      have hc : c ∈ natDigs m.natAbs := by rw [hnd]; simp
      exact absurd (List.cons.inj h).1 (mem_natDigs_ne_dash m.natAbs c hc)
  · rw [if_neg hm, if_neg hn] at h
    have := natDigs_inj h
    omega

/-- The key encoding is injective as a map from `(year, weekIdx)` pairs:
equal keys force equal years and equal week indices. -/
theorem weekKey_encoding_inj {y1 w1 y2 w2 : Int}
    (h : (⟨intChars y1 ++ '-' :: 'W' :: intChars w1⟩ : String) =
         ⟨intChars y2 ++ '-' :: 'W' :: intChars w2⟩) :
    y1 = y2 ∧ w1 = w2 := by
  have hl : intChars y1 ++ '-' :: 'W' :: intChars w1 =
      intChars y2 ++ '-' :: 'W' :: intChars w2 := congrArg String.data h
  by_cases hy1 : y1 < 0 <;> by_cases hy2 : y2 < 0
  · unfold intChars at hl
    rw [if_pos hy1, if_pos hy2] at hl
    simp only [List.cons_append, List.cons.injEq, true_and] at hl
    obtain ⟨ha, hb⟩ := append_dash_inj _ _ _ _
      (mem_natDigs_ne_dash y1.natAbs) (mem_natDigs_ne_dash y2.natAbs) hl
    refine ⟨?_, intChars_inj (List.cons_injective hb)⟩
    have := natDigs_inj ha; omega
  · unfold intChars at hl
    rw [if_pos hy1, if_neg hy2] at hl
    cases hnd : natDigs y2.natAbs with
    | nil => exact absurd hnd (natDigs_ne_nil _)
    | cons c cs =>
      rw [hnd] at hl
      simp only [List.cons_append, List.cons.injEq] at hl
      have hc : c ∈ natDigs y2.natAbs := by rw [hnd]; simp
      exact absurd hl.1.symm (mem_natDigs_ne_dash y2.natAbs c hc)
  · unfold intChars at hl
    rw [if_neg hy1, if_pos hy2] at hl
    cases hnd : natDigs y1.natAbs with
    | nil => exact absurd hnd (natDigs_ne_nil _)
    | cons c cs =>
      rw [hnd] at hl
      simp only [List.cons_append, List.cons.injEq] at hl
      have hc : c ∈ natDigs y1.natAbs := by rw [hnd]; simp
      exact absurd hl.1 (mem_natDigs_ne_dash y1.natAbs c hc)
  · obtain ⟨ha, hb⟩ := append_dash_inj _ _ _ _
      (intChars_no_dash (by omega)) (intChars_no_dash (by omega)) hl
    exact ⟨intChars_inj ha, intChars_inj (List.cons_injective hb)⟩

/-- Equal week keys force equal years and equal week indices. -/
theorem getWeekKey_inj {t1 t2 : Int} (h : getWeekKey t1 = getWeekKey t2) :
    yearMs t1 = yearMs t2 ∧ weekIdx t1 = weekIdx t2 :=
  weekKey_encoding_inj h

/-! ## Data model and week grid -/

/-- A reconstructed series point: `{ date, stars, displayDate, timestamp }`
with the two display strings (derived formatting of `timestamp`) omitted. -/
structure StarPoint where
  timestamp : Int
  stars : Int
deriving DecidableEq, Repr

/-- Number of iterations of the source's week loop
`while (current <= endDate) { ...; current.setDate(current.getDate() + 7) }`. -/
def numWeeks (start now : Int) : Nat :=
  if start ≤ now then ((now - start).fdiv msPerWeek).toNat + 1 else 0

/-- The weekly time grid the loop builds: `start + k` weeks for every `k`
with `start + k * msPerWeek ≤ now`. -/
def gridFrom (start now : Int) : List Int :=
  (List.range (numWeeks start now)).map (fun k : Nat => start + (k : Int) * msPerWeek)

theorem gridFrom_nil {start now : Int} (h : ¬ start ≤ now) : gridFrom start now = [] := by
  simp [gridFrom, numWeeks, if_neg h]

/-- The grid satisfies the loop's unfolding: one point at `start`, then the
grid of the advanced cursor. -/
theorem gridFrom_cons {start now : Int} (h : start ≤ now) :
    gridFrom start now = start :: gridFrom (start + msPerWeek) now := by
  have hn : numWeeks start now = numWeeks (start + msPerWeek) now + 1 := by
    unfold numWeeks
    by_cases h2 : start + msPerWeek ≤ now
    · rw [if_pos h, if_pos h2]
      have he : now - start = (now - (start + msPerWeek)) + 1 * msPerWeek := by ring
      rw [he, Int.fdiv_eq_ediv _ (by decide), Int.fdiv_eq_ediv _ (by decide),
        Int.add_mul_ediv_right _ _ (by decide)]
      have hge : (0:Int) ≤ (now - (start + msPerWeek)) / msPerWeek :=
        Int.ediv_nonneg (by omega) (by decide)
      omega
    · rw [if_pos h, if_neg h2]
      have h3 : now - start < msPerWeek := by omega
      rw [Int.fdiv_eq_ediv _ (by decide), Int.ediv_eq_zero_of_lt (by omega) h3]
      rfl
  rw [gridFrom, hn, List.range_succ_eq_map, List.map_cons, List.map_map, gridFrom]
  congr 1
  · push_cast; ring
  · apply List.map_congr_left
    intro k _
    simp only [Function.comp_apply]
    push_cast
    ring

theorem mem_gridFrom {start now t : Int} (h : t ∈ gridFrom start now) :
    ∃ k : Nat, t = start + (k : Int) * msPerWeek := by
  rw [gridFrom, List.mem_map] at h
  obtain ⟨k, _, hk⟩ := h
  exact ⟨k, hk.symm⟩

/-- Distinct positions in the week grid carry distinct week keys: equal keys
would force equal years — hence the same `Jan 1` reference — and then equal
7-day indices, impossible for instants a positive number of exact weeks
apart. -/
theorem getWeekKey_ne_of_week_lt {a b : Int} (k : Nat) (hk : 0 < k)
    (hb : b = a + (k : Int) * msPerWeek) : getWeekKey a ≠ getWeekKey b := by
  intro h
  obtain ⟨hy, hw⟩ := getWeekKey_inj h
  unfold weekIdx at hw
  rw [← hy] at hw
  have hb' : b - jan1Ms (yearMs a) = (a - jan1Ms (yearMs a)) + (k : Int) * msPerWeek := by
    rw [hb]; ring
  rw [hb', Int.fdiv_eq_ediv _ (by decide), Int.fdiv_eq_ediv _ (by decide),
    Int.add_mul_ediv_right _ _ (by decide)] at hw
  omega

/-- The week keys of the grid are pairwise distinct. -/
theorem gridKeys_nodup (start now : Int) :
    ((gridFrom start now).map getWeekKey).Nodup := by
  apply List.Nodup.map_on
  · intro a ha b hb hab
    by_contra hne
    obtain ⟨i, hi⟩ := mem_gridFrom ha
    obtain ⟨j, hj⟩ := mem_gridFrom hb
    rcases Nat.lt_trichotomy i j with hlt | heq | hlt
    · exact getWeekKey_ne_of_week_lt (j - i) (by omega)
        (by rw [hi, hj]; push_cast [Nat.cast_sub (le_of_lt hlt)]; ring) hab
    · exact hne (by rw [hi, hj, heq])
    · exact getWeekKey_ne_of_week_lt (i - j) (by omega)
        (by rw [hi, hj]; push_cast [Nat.cast_sub (le_of_lt hlt)]; ring) hab.symm
  · apply List.Nodup.map
    · intro a b hab
      have hW : (msPerWeek : Int) ≠ 0 := by decide
      exact_mod_cast mul_right_cancel₀ hW (add_left_cancel hab)
    · exact List.nodup_range _

/-! ## Exact reconstruction path (`processStargazersData`) -/

/-- Per-week event count: the `starsByWeek` map built by
`starsByWeek.set(weekKey, (starsByWeek.get(weekKey) || 0) + 1)`, read back at
a given key. -/
def countKey (events : List Int) (k : String) : Nat :=
  events.countP (fun t => decide (getWeekKey t = k))

/-- The cumulative walk of `processStargazersData`: for each grid date, add
that week's count to the running total and emit a point. -/
def exactBuild (events : List Int) : List Int → Nat → List StarPoint
  | [], _ => []
  | d :: rest, cum =>
    let cum' := cum + countKey events (getWeekKey d)
    ⟨d, (cum' : Int)⟩ :: exactBuild events rest cum'

/-- `processStargazersData(stargazers, createdAt)`: group stargazer
timestamps by week, then walk the weekly grid from `createdAt` to `now`
accumulating counts.  (`now` is the ambient `new Date()`, passed
explicitly.) -/
def processStargazersData (stargazers : List Int) (createdAt now : Int) : List StarPoint :=
  exactBuild stargazers (gridFrom createdAt now) 0

/-! ## Estimation reconstruction path (`enhancedInterpolateStarHistory`) -/

/-- Per-week commit count (`commitsByPeriod`). -/
def commitCountAt (commits : List Int) (k : String) : Nat :=
  commits.countP (fun t => decide (getWeekKey t = k))

/-- Per-week release flag (`releasesByPeriod`). -/
def hasReleaseAt (releases : List Int) (k : String) : Bool :=
  releases.any (fun t => decide (getWeekKey t = k))

/-- The candidate value `calculatedStars` for the grid point `date` at
position `index` of `n` total points:

```
const timeProgress = index / timePoints.length
const ageInWeeks = index + 1
const baseGrowth = currentStars * Math.pow(timeProgress, 1.5)
const activityMultiplier = 1 + commitActivity * 0.1
const releaseBoost = hasRelease ? currentStars * 0.05 : 0
const earlyBoost = ageInWeeks < 10 ? Math.pow(2, 10 - ageInWeeks) * 0.01 : 0
Math.floor(baseGrowth * activityMultiplier + releaseBoost + currentStars * earlyBoost)
```
-/
def calculatedStars (pow15 : ℚ → ℚ) (commits releases : List Int) (currentStars : Nat)
    (n : Nat) (date : Int) (index : Nat) : Int :=
  let wk := getWeekKey date
  let commitActivity := commitCountAt commits wk
  let hasRelease := hasReleaseAt releases wk
  let timeProgress : ℚ := (index : ℚ) / (n : ℚ)
  let ageInWeeks := index + 1
  let baseGrowth : ℚ := (currentStars : ℚ) * pow15 timeProgress
  let activityMultiplier : ℚ := 1 + (commitActivity : ℚ) * (1 / 10)
  let releaseBoost : ℚ := if hasRelease then (currentStars : ℚ) * (5 / 100) else 0
  let earlyBoost : ℚ := if ageInWeeks < 10 then (2 : ℚ) ^ (10 - ageInWeeks) * (1 / 100) else 0
  ⌊baseGrowth * activityMultiplier + releaseBoost + (currentStars : ℚ) * earlyBoost⌋

/-- The `timePoints.forEach` accumulation loop:
`accumulatedStars = Math.min(currentStars, Math.max(accumulatedStars, calculatedStars))`
then push a point with `Math.floor(accumulatedStars)` (already integral). -/
def estBuild (pow15 : ℚ → ℚ) (commits releases : List Int) (currentStars : Nat)
    (n : Nat) : List Int → Nat → Int → List StarPoint
  | [], _, _ => []
  | d :: rest, index, acc =>
    let acc' := min (currentStars : Int)
      (max acc (calculatedStars pow15 commits releases currentStars n d index))
    ⟨d, acc'⟩ :: estBuild pow15 commits releases currentStars n rest (index + 1) acc'

/-- `data[data.length - 1].stars = currentStars` (the final-point
correction; no-op on the empty series, matching the `data.length > 0`
guard). -/
def setLast (c : Int) : List StarPoint → List StarPoint
  | [] => []
  | [p] => [{ p with stars := c }]
  | p :: q :: rest => p :: setLast c (q :: rest)

/-- The backward smoothing pass:

```
for (let i = data.length - 2; i >= 0; i--) {
  if (data[i].stars > data[i + 1].stars) {
    data[i].stars = Math.floor(data[i + 1].stars * 0.95)
  }
}
```

Each point is compared against the final value of its successor (the loop
walks right to left), which is exactly this right-fold. -/
def smooth : List StarPoint → List StarPoint
  | [] => []
  | [p] => [p]
  | p :: q :: rest =>
    match smooth (q :: rest) with
    | [] => [p]
    | z :: tl =>
      (if p.stars > z.stars then { p with stars := ⌊(z.stars : ℚ) * (95 / 100)⌋ } else p)
        :: z :: tl

/-- The raw accumulated series, before the final-accuracy block. -/
def estRaw (pow15 : ℚ → ℚ) (commits releases : List Int) (currentStars : Nat)
    (createdAt now : Int) : List StarPoint :=
  let timePoints := gridFrom createdAt now
  estBuild pow15 commits releases currentStars timePoints.length timePoints 0
    (max 1 ⌊(currentStars : ℚ) * (5 / 100)⌋)

/-- `enhancedInterpolateStarHistory(commits, releases, currentStars, createdAt)`
(with the ambient `new Date()` passed explicitly as `now`): build the weekly
grid, run the growth-model accumulation seeded at
`Math.max(1, Math.floor(currentStars * 0.05))`, force the last point to
`currentStars`, then run the backward smoothing pass. -/
def enhancedInterpolateStarHistory (pow15 : ℚ → ℚ) (commits releases : List Int)
    (currentStars : Nat) (createdAt now : Int) : List StarPoint :=
  smooth (setLast (currentStars : Int) (estRaw pow15 commits releases currentStars createdAt now))

/-- Comparison definition for the refinement claim: the estimation path with
the backward smoothing loop removed (final-point correction retained). -/
def interpolateNoSmoothing (pow15 : ℚ → ℚ) (commits releases : List Int)
    (currentStars : Nat) (createdAt now : Int) : List StarPoint :=
  setLast (currentStars : Int) (estRaw pow15 commits releases currentStars createdAt now)

/-! ## Comparison engine (`compareRepositories`) -/

/-- The fields of a `GitHubRepo` that `compareRepositories` reads. -/
structure RepoFacts where
  stargazers_count : Nat
  created_at : Int
deriving DecidableEq, Repr

/-- The three-way comparison outcome. -/
inductive Winner where
  | repo1
  | repo2
  | tie
deriving DecidableEq, Repr

/-- The metrics object computed by `compareRepositories`. -/
structure ComparisonMetrics where
  starGrowthRate1 : ℚ
  starGrowthRate2 : ℚ
  ageInDays1 : Int
  ageInDays2 : Int
  starsPerDay1 : ℚ
  starsPerDay2 : ℚ
  winner : Winner
deriving DecidableEq

/-- `Math.floor((Date.now() - new Date(repo.created_at).getTime()) / (1000*60*60*24))`. -/
def repoAgeDays (now created : Int) : Int := (now - created).fdiv msPerDay

/-- `compareRepositories(repo1, repo2)` (ambient `Date.now()` passed
explicitly): stars-per-day ratios with age floored at one day, simplified
annualized growth rates, and a winner only when one rate exceeds the other
by more than 10% (`starsPerDay1 > starsPerDay2 * 1.1`, else-if
symmetrically, else tie). -/
def compareRepositories (now : Int) (repo1 repo2 : RepoFacts) : ComparisonMetrics :=
  let repo1Age := repoAgeDays now repo1.created_at
  let repo2Age := repoAgeDays now repo2.created_at
  let starsPerDay1 : ℚ := (repo1.stargazers_count : ℚ) / (max repo1Age 1 : ℚ)
  let starsPerDay2 : ℚ := (repo2.stargazers_count : ℚ) / (max repo2Age 1 : ℚ)
  let starGrowthRate1 : ℚ :=
    (repo1.stargazers_count : ℚ) / (max ((repo1Age : ℚ) / 365) (1 / 10)) * 100
  let starGrowthRate2 : ℚ :=
    (repo2.stargazers_count : ℚ) / (max ((repo2Age : ℚ) / 365) (1 / 10)) * 100
  let winner : Winner :=
    if starsPerDay1 > starsPerDay2 * (11 / 10) then .repo1
    else if starsPerDay2 > starsPerDay1 * (11 / 10) then .repo2
    else .tie
  { starGrowthRate1 := starGrowthRate1
    starGrowthRate2 := starGrowthRate2
    ageInDays1 := repo1Age
    ageInDays2 := repo2Age
    starsPerDay1 := starsPerDay1
    starsPerDay2 := starsPerDay2
    winner := winner }

-- Sanity checks on concrete inputs.
example :
    (processStargazersData [0, 0, 0, 1209600000, 1209600000] 0 1209600000).map
      (fun p => p.stars) = [3, 3, 5] := by decide
example :
    (enhancedInterpolateStarHistory (fun _ => 0) [] [] 7 0 0).map
      (fun p => p.stars) = [7] := by decide

/-! ## Smoothing-pass lemmas -/

/-- The series-order relation: star values weakly increase. -/
def starsNondecr (l : List StarPoint) : Prop :=
  List.Chain' (fun p q => p.stars ≤ q.stars) l

instance (l : List StarPoint) : Decidable (starsNondecr l) :=
  inferInstanceAs (Decidable (List.Chain' _ l))

theorem smooth_cons_cons (p q : StarPoint) (rest : List StarPoint) :
    smooth (p :: q :: rest) =
      match smooth (q :: rest) with
      | [] => [p]
      | z :: tl =>
        (if p.stars > z.stars then { p with stars := ⌊(z.stars : ℚ) * (95 / 100)⌋ } else p)
          :: z :: tl := rfl

/-- Unfolding of `smooth` on a cons whose tail smooths to `z :: tl`. -/
theorem smooth_cons_eq (p q : StarPoint) (rest : List StarPoint) {z : StarPoint}
    {tl : List StarPoint} (h : smooth (q :: rest) = z :: tl) :
    smooth (p :: q :: rest) =
      (if p.stars > z.stars then { p with stars := ⌊(z.stars : ℚ) * (95 / 100)⌋ } else p)
        :: z :: tl := by
  rw [smooth_cons_cons, h]

theorem smooth_length : ∀ l : List StarPoint, (smooth l).length = l.length := by
  intro l
  induction l with
  | nil => rfl
  | cons p l' ih =>
    cases l' with
    | nil => rfl
    | cons q rest =>
      cases h : smooth (q :: rest) with
      | nil => rw [h] at ih; simp at ih
      | cons z tl =>
        have ih' : (z :: tl).length = (q :: rest).length := h ▸ ih
        rw [smooth_cons_eq p q rest h]
        simp only [List.length_cons] at ih' ⊢
        omega

theorem smooth_ne_nil {l : List StarPoint} (h : l ≠ []) : smooth l ≠ [] := by
  intro hc
  have := smooth_length l
  rw [hc] at this
  exact h (List.length_eq_zero.mp this.symm)

/-- A series the smoothing pass has produced is a fixed point of the pass. -/
theorem smooth_idem : ∀ l : List StarPoint, smooth (smooth l) = smooth l := by
  intro l
  induction l with
  | nil => rfl
  | cons p l' ih =>
    cases l' with
    | nil => rfl
    | cons q rest =>
      cases h : smooth (q :: rest) with
      | nil => exact absurd h (smooth_ne_nil (by simp))
      | cons z tl =>
        rw [h] at ih
        rw [smooth_cons_eq p q rest h]
        by_cases hpz : p.stars > z.stars
        · rw [if_pos hpz]
          cases tl with
          | nil =>
            rw [smooth_cons_eq _ z [] (by rfl)]
            by_cases h2 : (⌊(z.stars : ℚ) * (95 / 100)⌋ : Int) > z.stars <;> simp [h2]
          | cons w tw =>
            have hz : smooth (z :: w :: tw) = z :: w :: tw := ih
            rw [smooth_cons_eq _ z (w :: tw) hz]
            by_cases h2 : (⌊(z.stars : ℚ) * (95 / 100)⌋ : Int) > z.stars <;> simp [h2]
        · rw [if_neg hpz]
          cases tl with
          | nil =>
            rw [smooth_cons_eq _ z [] (by rfl), if_neg hpz]
          | cons w tw =>
            have hz : smooth (z :: w :: tw) = z :: w :: tw := ih
            rw [smooth_cons_eq _ z (w :: tw) hz, if_neg hpz]

/-- The smoothing pass does not touch an already monotone series. -/
theorem smooth_of_nondecr : ∀ l : List StarPoint, starsNondecr l → smooth l = l := by
  intro l
  induction l with
  | nil => intro _; rfl
  | cons p l' ih =>
    cases l' with
    | nil => intro _; rfl
    | cons q rest =>
      intro hchain
      obtain ⟨hpq, hrest⟩ := List.chain'_cons.mp hchain
      rw [smooth_cons_eq p q rest (ih hrest), if_neg (by omega)]

/-! ## Accumulation-loop lemmas (estimation path) -/

theorem estBuild_cons (pow15 : ℚ → ℚ) (commits releases : List Int) (c n : Nat)
    (d : Int) (rest : List Int) (index : Nat) (acc : Int) :
    estBuild pow15 commits releases c n (d :: rest) index acc =
      ⟨d, min (c : Int) (max acc (calculatedStars pow15 commits releases c n d index))⟩
        :: estBuild pow15 commits releases c n rest (index + 1)
            (min (c : Int) (max acc (calculatedStars pow15 commits releases c n d index))) :=
  rfl

/-- Every accumulated value is clamped below `currentStars`. -/
theorem estBuild_stars_le (pow15 : ℚ → ℚ) (commits releases : List Int) (c n : Nat) :
    ∀ (dates : List Int) (index : Nat) (acc : Int),
      ∀ p ∈ estBuild pow15 commits releases c n dates index acc, p.stars ≤ (c : Int) := by
  intro dates
  induction dates with
  | nil => intro index acc p hp; simp [estBuild] at hp
  | cons d rest ih =>
    intro index acc p hp
    rw [estBuild_cons] at hp
    rcases List.mem_cons.mp hp with h | h
    · rw [h]; exact min_le_left _ _
    · exact ih _ _ p h

/-- Accumulated values stay non-negative when the incoming accumulator is. -/
theorem estBuild_stars_nonneg (pow15 : ℚ → ℚ) (commits releases : List Int) (c n : Nat) :
    ∀ (dates : List Int) (index : Nat) (acc : Int), 0 ≤ acc →
      ∀ p ∈ estBuild pow15 commits releases c n dates index acc, 0 ≤ p.stars := by
  intro dates
  induction dates with
  | nil => intro index acc _ p hp; simp [estBuild] at hp
  | cons d rest ih =>
    intro index acc hacc p hp
    rw [estBuild_cons] at hp
    have hstep : 0 ≤ min (c : Int)
        (max acc (calculatedStars pow15 commits releases c n d index)) :=
      le_min (by positivity) (le_trans hacc (le_max_left _ _))
    rcases List.mem_cons.mp hp with h | h
    · rw [h]; exact hstep
    · exact ih _ _ hstep p h

/-- The raw accumulated series is monotone: each step takes a max with the
previous value and the previous value already sits below the clamp. -/
theorem estBuild_nondecr (pow15 : ℚ → ℚ) (commits releases : List Int) (c n : Nat) :
    ∀ (dates : List Int) (index : Nat) (acc : Int),
      starsNondecr (estBuild pow15 commits releases c n dates index acc) := by
  intro dates
  induction dates with
  | nil => intro index acc; exact List.chain'_nil
  | cons d rest ih =>
    intro index acc
    rw [estBuild_cons]
    apply List.chain'_cons'.mpr
    refine ⟨?_, ih _ _⟩
    intro y hy
    cases rest with
    | nil => simp [estBuild] at hy
    | cons d' rest' =>
      rw [estBuild_cons] at hy
      simp only [List.head?_cons, Option.mem_def, Option.some.injEq] at hy
      rw [← hy]
      exact le_min (min_le_left _ _) (le_max_left _ _)

theorem estBuild_ne_nil (pow15 : ℚ → ℚ) (commits releases : List Int) (c n : Nat)
    (d : Int) (rest : List Int) (index : Nat) (acc : Int) :
    estBuild pow15 commits releases c n (d :: rest) index acc ≠ [] := by
  rw [estBuild_cons]; simp

/-! ## Final-point-correction lemmas -/

theorem setLast_cons_cons (c : Int) (p q : StarPoint) (rest : List StarPoint) :
    setLast c (p :: q :: rest) = p :: setLast c (q :: rest) := rfl

theorem setLast_length (c : Int) : ∀ l : List StarPoint, (setLast c l).length = l.length := by
  intro l
  induction l with
  | nil => rfl
  | cons p l' ih =>
    cases l' with
    | nil => rfl
    | cons q rest => simpa [setLast_cons_cons] using ih

theorem setLast_ne_nil {c : Int} {l : List StarPoint} (h : l ≠ []) : setLast c l ≠ [] := by
  intro hc
  have := setLast_length c l
  rw [hc] at this
  exact h (List.length_eq_zero.mp this.symm)

/-- After the correction, the last point carries exactly the value `c`. -/
theorem setLast_getLast (c : Int) :
    ∀ l : List StarPoint, l ≠ [] →
      ∃ p, (setLast c l).getLast? = some p ∧ p.stars = c := by
  intro l
  induction l with
  | nil => intro h; exact absurd rfl h
  | cons p l' ih =>
    intro _
    cases l' with
    | nil => exact ⟨{ p with stars := c }, rfl, rfl⟩
    | cons q rest =>
      obtain ⟨z, hz, hzc⟩ := ih (by simp)
      refine ⟨z, ?_, hzc⟩
      rw [setLast_cons_cons]
      cases hs : setLast c (q :: rest) with
      | nil => exact absurd hs (setLast_ne_nil (by simp))
      | cons w tl =>
        rw [List.getLast?_cons_cons, ← hs]
        exact hz

/-- The correction preserves the ceiling. -/
theorem setLast_stars_le (c : Int) :
    ∀ l : List StarPoint, (∀ p ∈ l, p.stars ≤ c) → ∀ p ∈ setLast c l, p.stars ≤ c := by
  intro l
  induction l with
  | nil => intro _ p hp; simp [setLast] at hp
  | cons p l' ih =>
    cases l' with
    | nil =>
      intro _ q hq
      simp only [setLast, List.mem_singleton] at hq
      rw [hq]
    | cons q rest =>
      intro hall r hr
      rw [setLast_cons_cons] at hr
      rcases List.mem_cons.mp hr with h | h
      · rw [h]; exact hall p (by simp)
      · exact ih (fun x hx => hall x (by simp [hx])) r h

/-- The correction preserves monotonicity when the series sits below `c`:
raising the last value to `c` cannot undercut its predecessor. -/
theorem setLast_nondecr (c : Int) :
    ∀ l : List StarPoint, starsNondecr l → (∀ p ∈ l, p.stars ≤ c) →
      starsNondecr (setLast c l) := by
  intro l
  induction l with
  | nil => intro _ _; exact List.chain'_nil
  | cons p l' ih =>
    cases l' with
    | nil => intro _ _; exact List.chain'_singleton _
    | cons q rest =>
      intro hchain hall
      obtain ⟨hpq, hrest⟩ := List.chain'_cons.mp hchain
      rw [setLast_cons_cons]
      apply List.chain'_cons'.mpr
      refine ⟨?_, ih hrest (fun x hx => hall x (by simp [hx]))⟩
      intro y hy
      cases rest with
      | nil =>
        simp only [setLast, List.head?_cons, Option.mem_def, Option.some.injEq] at hy
        rw [← hy]
        exact hall p (by simp)
      | cons r rest' =>
        rw [setLast_cons_cons] at hy
        simp only [List.head?_cons, Option.mem_def, Option.some.injEq] at hy
        rw [← hy]
        exact hpq

/-- The correction does not touch the head value when the head already
carries the value `c` (on a singleton it rewrites it to `c` anyway). -/
theorem setLast_head?_stars (c : Int) (p : StarPoint) (l : List StarPoint)
    (hp : p.stars = c) :
    ((setLast c (p :: l)).map (fun r => r.stars)).head? = some c := by
  cases l with
  | nil => rfl
  | cons q rest => simpa [setLast_cons_cons] using hp

/-! ## Exact-path lemmas -/

theorem exactBuild_cons (events : List Int) (d : Int) (rest : List Int) (cum : Nat) :
    exactBuild events (d :: rest) cum =
      ⟨d, ((cum + countKey events (getWeekKey d) : Nat) : Int)⟩
        :: exactBuild events rest (cum + countKey events (getWeekKey d)) :=
  rfl

/-- The exact path's running sum only ever adds non-negative weekly counts. -/
theorem exactBuild_nondecr (events : List Int) :
    ∀ (dates : List Int) (cum : Nat), starsNondecr (exactBuild events dates cum) := by
  intro dates
  induction dates with
  | nil => intro cum; exact List.chain'_nil
  | cons d rest ih =>
    intro cum
    rw [exactBuild_cons]
    apply List.chain'_cons'.mpr
    refine ⟨?_, ih _⟩
    intro y hy
    cases rest with
    | nil => simp [exactBuild] at hy
    | cons d' rest' =>
      rw [exactBuild_cons] at hy
      simp only [List.head?_cons, Option.mem_def, Option.some.injEq] at hy
      rw [← hy]
      simp only []
      exact_mod_cast Nat.le_add_right _ _

theorem countP_or_disjoint (l : List Int) (p q : Int → Bool)
    (h : ∀ x, ¬(p x = true ∧ q x = true)) :
    l.countP (fun x => p x || q x) = l.countP p + l.countP q := by
  induction l with
  | nil => simp
  | cons a l ih =>
    rw [List.countP_cons, List.countP_cons, List.countP_cons, ih]
    rcases hp : p a with _ | _ <;> rcases hq : q a with _ | _ <;> simp_all <;> omega

/-- Each cumulative value of the exact walk is bounded by the starting total
plus the number of events whose key occurs among the remaining grid keys
(grid keys being pairwise distinct, no event is counted twice). -/
theorem exactBuild_le (events : List Int) :
    ∀ (dates : List Int) (cum : Nat), ((dates.map getWeekKey).Nodup) →
      ∀ p ∈ exactBuild events dates cum,
        p.stars ≤ (cum : Int) +
          (events.countP (fun t => decide (getWeekKey t ∈ dates.map getWeekKey)) : Int) := by
  intro dates
  induction dates with
  | nil => intro cum _ p hp; simp [exactBuild] at hp
  | cons d rest ih =>
    intro cum hnd p hp
    rw [List.map_cons, List.nodup_cons] at hnd
    obtain ⟨hnotin, hnd'⟩ := hnd
    have hsplit : events.countP
          (fun t => decide (getWeekKey t ∈ (d :: rest).map getWeekKey)) =
        events.countP (fun t => decide (getWeekKey t = getWeekKey d)) +
          events.countP (fun t => decide (getWeekKey t ∈ rest.map getWeekKey)) := by
      rw [List.countP_congr (q := fun t =>
        decide (getWeekKey t = getWeekKey d) || decide (getWeekKey t ∈ rest.map getWeekKey))]
      · exact countP_or_disjoint events _ _ (fun t => by
          rintro ⟨h1, h2⟩
          simp only [decide_eq_true_eq] at h1 h2
          exact hnotin (h1 ▸ h2))
      · intro t _
        simp [List.mem_cons]
    rw [exactBuild_cons] at hp
    rcases List.mem_cons.mp hp with h | h
    · rw [h]
      simp only []
      rw [hsplit]
      have : (0:Int) ≤ (events.countP
          (fun t => decide (getWeekKey t ∈ rest.map getWeekKey)) : Int) := by positivity
      push_cast [countKey]
      omega
    · have := ih (cum + countKey events (getWeekKey d)) hnd' p h
      rw [hsplit]
      push_cast [countKey] at this ⊢
      omega

/-! ## Pipeline-level lemmas -/

/-- The raw estimation series obeys the ceiling. -/
theorem estRaw_stars_le (pow15 : ℚ → ℚ) (commits releases : List Int) (c : Nat)
    (createdAt now : Int) :
    ∀ p ∈ estRaw pow15 commits releases c createdAt now, p.stars ≤ (c : Int) :=
  estBuild_stars_le pow15 commits releases c _ _ _ _

/-- The raw estimation series is monotone before any correction. -/
theorem estRaw_nondecr (pow15 : ℚ → ℚ) (commits releases : List Int) (c : Nat)
    (createdAt now : Int) :
    starsNondecr (estRaw pow15 commits releases c createdAt now) :=
  estBuild_nondecr pow15 commits releases c _ _ _ _

theorem estRaw_ne_nil (pow15 : ℚ → ℚ) (commits releases : List Int) (c : Nat)
    {createdAt now : Int} (h : createdAt ≤ now) :
    estRaw pow15 commits releases c createdAt now ≠ [] := by
  unfold estRaw
  rw [gridFrom_cons h]
  exact estBuild_ne_nil _ _ _ _ _ _ _ _ _

/-- The corrected series before smoothing is still monotone: all raw values
sit below `currentStars`, so snapping the last value up to `currentStars`
cannot fall under its predecessor. -/
theorem corrected_nondecr (pow15 : ℚ → ℚ) (commits releases : List Int) (c : Nat)
    (createdAt now : Int) :
    starsNondecr (setLast (c : Int) (estRaw pow15 commits releases c createdAt now)) :=
  setLast_nondecr _ _ (estRaw_nondecr pow15 commits releases c createdAt now)
    (estRaw_stars_le pow15 commits releases c createdAt now)

/-- On the estimation path the smoothing pass never fires: the series it
receives is already monotone. -/
theorem enhanced_eq_noSmoothing (pow15 : ℚ → ℚ) (commits releases : List Int) (c : Nat)
    (createdAt now : Int) :
    enhancedInterpolateStarHistory pow15 commits releases c createdAt now =
      interpolateNoSmoothing pow15 commits releases c createdAt now :=
  smooth_of_nondecr _ (corrected_nondecr pow15 commits releases c createdAt now)

/-- At index 0 the candidate is at least `currentStars`: `timeProgress` is 0,
so the base term vanishes (`Math.pow(0, 1.5) = 0`), and the week-1
early-adoption boost contributes `currentStars * 2^9 * 0.01 = 5.12 *
currentStars`, which alone meets the clamp whenever any star exists. -/
theorem calculatedStars_zero_ge (pow15 : ℚ → ℚ) (hpow : pow15 0 = 0)
    (commits releases : List Int) (c n : Nat) (d : Int) (hc : 1 ≤ c) :
    (c : Int) ≤ calculatedStars pow15 commits releases c n d 0 := by
  unfold calculatedStars
  simp only [Nat.cast_zero, zero_div, hpow, mul_zero, zero_mul, zero_add]
  rw [Int.le_floor]
  have hrel : (0 : ℚ) ≤ (if hasReleaseAt releases (getWeekKey d) then (c : ℚ) * (5 / 100) else 0) := by
    split
    · positivity
    · exact le_refl 0
  have hboost : (if 0 + 1 < 10 then (2 : ℚ) ^ (10 - (0 + 1)) * (1 / 100) else 0) = 512 / 100 := by
    norm_num
  rw [hboost]
  have hcq : (1 : ℚ) ≤ (c : ℚ) := by exact_mod_cast hc
  push_cast
  nlinarith [hrel, hcq]

theorem setLast_mem (c : Int) :
    ∀ (l : List StarPoint) (p : StarPoint), p ∈ setLast c l → p.stars = c ∨ p ∈ l := by
  intro l
  induction l with
  | nil => intro p hp; simp [setLast] at hp
  | cons q l' ih =>
    cases l' with
    | nil =>
      intro p hp
      simp only [setLast, List.mem_singleton] at hp
      left; rw [hp]
    | cons r rest =>
      intro p hp
      rw [setLast_cons_cons] at hp
      rcases List.mem_cons.mp hp with h | h
      · right; rw [h]; simp
      · rcases ih p h with h' | h'
        · left; exact h'
        · right; simp [h']

/-! ## Claim theorems -/

/-- C1: For every input with a non-empty weekly grid (`createdAt` not after
`now`), the estimation reconstruction path returns a series whose last
point's star value equals `currentStarCount` exactly, for every value of the
activity events and `currentStarCount` (and every admissible power
function). -/
theorem estimation_final_value_exact (pow15 : ℚ → ℚ) (commits releases : List Int)
    (currentStars : Nat) (createdAt now : Int) (h : createdAt ≤ now) :
    ∃ p, (enhancedInterpolateStarHistory pow15 commits releases currentStars
            createdAt now).getLast? = some p ∧ p.stars = (currentStars : Int) := by
  rw [enhanced_eq_noSmoothing]
  exact setLast_getLast _ _ (estRaw_ne_nil pow15 commits releases currentStars h)

theorem estimation_final_value_exact_witness :
    (0 : Int) ≤ 0 ∧
    ∃ p, (enhancedInterpolateStarHistory (fun _ => 0) [] [] 7 0 0).getLast? = some p ∧
      p.stars = (7 : Int) :=
  ⟨le_refl 0, estimation_final_value_exact (fun _ => 0) [] [] 7 0 0 (le_refl 0)⟩

/-- C2: Every series produced by either reconstruction path (exact or
estimation) has monotonically non-decreasing star values. -/
theorem both_paths_monotone :
    (∀ (pow15 : ℚ → ℚ) (commits releases : List Int) (currentStars : Nat)
        (createdAt now : Int),
      starsNondecr (enhancedInterpolateStarHistory pow15 commits releases currentStars
        createdAt now)) ∧
    (∀ (stargazers : List Int) (createdAt now : Int),
      starsNondecr (processStargazersData stargazers createdAt now)) := by
  constructor
  · intro pow15 commits releases c createdAt now
    rw [enhanced_eq_noSmoothing]
    exact corrected_nondecr pow15 commits releases c createdAt now
  · intro stargazers createdAt now
    exact exactBuild_nondecr stargazers (gridFrom createdAt now) 0

/-- C3 (as stated, refuted): the exact path never consults
`currentStarCount`, so with five stargazer events and a snapshot count of 3
the single series point holds 5 > 3. -/
theorem ceiling_counterexample :
    ∃ p ∈ processStargazersData [0, 0, 0, 0, 0] 0 0, ¬(p.stars ≤ (3 : Int)) := by
  decide

/-- C3 (amended): every point of the estimation path is at most
`currentStarCount`, for all event inputs; on the exact path the bound holds
whenever the number of stargazer events does not exceed `currentStarCount`
(each point's value never exceeds the number of supplied events, the grid's
week keys being pairwise distinct). -/
theorem ceiling_amended :
    (∀ (pow15 : ℚ → ℚ) (commits releases : List Int) (currentStars : Nat)
        (createdAt now : Int),
      ∀ p ∈ enhancedInterpolateStarHistory pow15 commits releases currentStars createdAt now,
        p.stars ≤ (currentStars : Int)) ∧
    (∀ (stargazers : List Int) (createdAt now : Int) (currentStars : Nat),
      stargazers.length ≤ currentStars →
      ∀ p ∈ processStargazersData stargazers createdAt now,
        p.stars ≤ (currentStars : Int)) := by
  constructor
  · intro pow15 commits releases c createdAt now p hp
    rw [enhanced_eq_noSmoothing] at hp
    exact setLast_stars_le _ _ (estRaw_stars_le pow15 commits releases c createdAt now) p hp
  · intro stargazers createdAt now c hlen p hp
    have hb := exactBuild_le stargazers (gridFrom createdAt now) 0
      (gridKeys_nodup createdAt now) p hp
    have hcount : stargazers.countP
        (fun t => decide (getWeekKey t ∈ (gridFrom createdAt now).map getWeekKey)) ≤
        stargazers.length := List.countP_le_length _
    push_cast at hb ⊢
    omega

theorem ceiling_amended_witness :
    ([0] : List Int).length ≤ 3 ∧
    (⟨0, 1⟩ : StarPoint) ∈ processStargazersData [0] 0 0 ∧
    (⟨0, 1⟩ : StarPoint).stars ≤ (3 : Int) ∧
    (⟨0, 2⟩ : StarPoint) ∈ enhancedInterpolateStarHistory (fun _ => 0) [] [] 2 0 0 ∧
    (⟨0, 2⟩ : StarPoint).stars ≤ (2 : Int) :=
  ⟨by decide, by decide,
    ceiling_amended.2 [0] 0 0 3 (by decide) ⟨0, 1⟩ (by decide),
    by decide,
    ceiling_amended.1 (fun _ => 0) [] [] 2 0 0 ⟨0, 2⟩ (by decide)⟩


section RatEval

/- `Rat.mul`/`Rat.add`/`Rat.sub`/`Rat.inv` are `@[irreducible]` in the
library, which blocks `decide` on concrete rational arithmetic; they are
locally restored to their definitional behaviour for concrete evaluations. -/
attribute [local semireducible] Rat.mul Rat.add Rat.sub Rat.inv

set_option maxRecDepth 40000

/-- C4 (as stated, refuted): in Scenario A (`createdAt = 2023-01-01`,
`currentStarCount = 1000`, no activity events, `now = createdAt + 70 days`)
the first point's value is 1000, not within the claimed 50–100 seed band:
the week-1 early-adoption boost `2^9 * 0.01 = 5.12` multiplies
`currentStarCount` past the ceiling immediately.  (`Math.pow(t, 1.5)` is
only read at `t = 0` in the first point's candidate, where it is 0, as
instantiated.) -/
theorem seed_band_counterexample :
    ((enhancedInterpolateStarHistory (fun _ => 0) [] [] 1000 1672531200000
        1678579200000).map (fun p => p.stars)).head? = some 1000 ∧
    ¬((50 : Int) ≤ 1000 ∧ (1000 : Int) ≤ 100) := by
  constructor
  · decide
  · decide

end RatEval

/-- C4 (amended): whenever the grid is non-empty and any star exists
(`currentStarCount ≥ 1`), the estimation series' first point equals
`currentStarCount` itself — not a 5–10% seed — because the week-1
early-adoption boost `2^9 * 0.01 = 5.12` already exceeds the ceiling; in
particular the series never starts at literal zero when stars exist. -/
theorem estimation_first_point_full (pow15 : ℚ → ℚ) (hpow : pow15 0 = 0)
    (commits releases : List Int) (currentStars : Nat) (createdAt now : Int)
    (hc : 1 ≤ currentStars) (h : createdAt ≤ now) :
    ((enhancedInterpolateStarHistory pow15 commits releases currentStars createdAt
        now).map (fun p => p.stars)).head? = some (currentStars : Int) := by
  rw [enhanced_eq_noSmoothing]
  simp only [interpolateNoSmoothing, estRaw]
  rw [gridFrom_cons h, estBuild_cons]
  apply setLast_head?_stars
  have hcand := calculatedStars_zero_ge pow15 hpow commits releases currentStars
    (createdAt :: gridFrom (createdAt + msPerWeek) now).length createdAt hc
  exact min_eq_left (le_trans hcand (le_max_right _ _))

theorem estimation_first_point_full_witness :
    (fun _ : ℚ => (0 : ℚ)) 0 = 0 ∧ 1 ≤ 3 ∧ (0 : Int) ≤ 0 ∧
    ((enhancedInterpolateStarHistory (fun _ => 0) [] [] 3 0 0).map
      (fun p => p.stars)).head? = some (3 : Int) :=
  ⟨rfl, by decide, le_refl 0,
    estimation_first_point_full (fun _ => 0) rfl [] [] 3 0 0 (by decide) (le_refl 0)⟩

/-- C5: the backward smoothing pass is idempotent — applying it a second
time to any series it has already processed leaves every value unchanged. -/
theorem smoothing_pass_idempotent :
    ∀ l : List StarPoint, smooth (smooth l) = smooth l :=
  smooth_idem

/-- C6: with `currentStarCount = 0` the estimation path (total by
construction) returns a series that is empty or all-zero, preserving the
ceiling invariant `0 ≤ 0`. -/
theorem zero_star_series (pow15 : ℚ → ℚ) (commits releases : List Int)
    (createdAt now : Int) :
    ∀ p ∈ enhancedInterpolateStarHistory pow15 commits releases 0 createdAt now,
      p.stars = 0 := by
  intro p hp
  rw [enhanced_eq_noSmoothing] at hp
  simp only [interpolateNoSmoothing] at hp
  rcases setLast_mem _ _ p hp with h | h
  · simpa using h
  · have h1 := estRaw_stars_le pow15 commits releases 0 createdAt now p h
    simp only [estRaw] at h
    have h2 := estBuild_stars_nonneg pow15 commits releases 0
      (gridFrom createdAt now).length (gridFrom createdAt now) 0
      (max 1 ⌊((0 : Nat) : ℚ) * (5 / 100)⌋)
      (le_trans zero_le_one (le_max_left _ _)) p h
    omega

theorem zero_star_series_witness :
    (⟨0, 0⟩ : StarPoint) ∈ enhancedInterpolateStarHistory (fun _ => 0) [] [] 0 0 0 ∧
    (⟨0, 0⟩ : StarPoint).stars = 0 :=
  ⟨by decide, zero_star_series (fun _ => 0) [] [] 0 0 ⟨0, 0⟩ (by decide)⟩

/-- A timestamp whose calendar year lies outside 0–99 has its code week
index computed against the actual January 1 of that year, matching the
spec's bucket index. -/
theorem weekIdx_eq_specWeekIdx {t : Int} (h : ¬(0 ≤ yearMs t ∧ yearMs t ≤ 99)) :
    weekIdx t = specWeekIdx t := by
  unfold weekIdx specWeekIdx jan1Ms makeFullYear
  rw [if_neg h]

/-- C7 (as stated, refuted): two timestamps in calendar year 50 with the
same spec week index `floor((t - Jan1OfYear)/7days)` receive different
keys: `new Date(50, 0, 1)` denotes January 1 of 1950 (the constructor's
two-digit-year rule), and the 693,960-day shift is ≡ 1 (mod 7), so the
code's bucket boundaries sit one day off the spec's.  Here
`-60589296000000` is 0050-01-01T00:00Z and `-60589209600000` is
0050-01-02T00:00Z; both have spec index 0 in year 50, yet their keys are
`"50-W-99138"` and `"50-W-99137"`. -/
theorem weekKey_collision_counterexample :
    yearMs (-60589296000000) = yearMs (-60589209600000) ∧
    specWeekIdx (-60589296000000) = specWeekIdx (-60589209600000) ∧
    getWeekKey (-60589296000000) ≠ getWeekKey (-60589209600000) :=
  ⟨by decide, by decide, by decide⟩

/-- C7 (amended): `getWeekKey` is a pure function of the timestamp; two
timestamps with the same calendar year and the same code week index — the
7-day index relative to `new Date(year, 0, 1)`, which for years 0–99 is
January 1 of `1900 + year` — get equal keys, and two timestamps in
different calendar years always get different keys.  For calendar years
outside 0–99 the code index coincides with the spec's
`floor((timestamp - Jan1OfYear)/7days)`, so the spec's collision property
holds there verbatim; within years 0–99 it fails (see the
counterexample). -/
theorem weekKey_year_week_encoding_amended (t1 t2 : Int) :
    (yearMs t1 = yearMs t2 → weekIdx t1 = weekIdx t2 → getWeekKey t1 = getWeekKey t2) ∧
    (yearMs t1 ≠ yearMs t2 → getWeekKey t1 ≠ getWeekKey t2) ∧
    (yearMs t1 = yearMs t2 → ¬(0 ≤ yearMs t1 ∧ yearMs t1 ≤ 99) →
      specWeekIdx t1 = specWeekIdx t2 → getWeekKey t1 = getWeekKey t2) := by
  refine ⟨?_, ?_, ?_⟩
  · intro hy hw
    unfold getWeekKey
    rw [hy, hw]
  · intro hy hk
    exact hy (getWeekKey_inj hk).1
  · intro hy hr hw
    have h1 := weekIdx_eq_specWeekIdx (t := t1) hr
    have h2 := weekIdx_eq_specWeekIdx (t := t2) (hy ▸ hr)
    unfold getWeekKey
    rw [hy, h1, hw, ← h2]

theorem weekKey_year_week_encoding_amended_witness :
    yearMs 0 = yearMs 1 ∧ weekIdx 0 = weekIdx 1 ∧ getWeekKey 0 = getWeekKey 1 ∧
    yearMs 0 ≠ yearMs 45360000000 ∧ getWeekKey 0 ≠ getWeekKey 45360000000 ∧
    ¬(0 ≤ yearMs 0 ∧ yearMs 0 ≤ 99) ∧ specWeekIdx 0 = specWeekIdx 86400000 ∧
    getWeekKey 0 = getWeekKey 86400000 :=
  ⟨by decide, by decide,
    (weekKey_year_week_encoding_amended 0 1).1 (by decide) (by decide),
    by decide,
    (weekKey_year_week_encoding_amended 0 45360000000).2.1 (by decide),
    by decide, by decide,
    (weekKey_year_week_encoding_amended 0 86400000).2.2 (by decide) (by decide) (by decide)⟩

/-- C8: the two-way comparison computes `starsPerDay = currentStarCount /
max(ageInDays, 1)` for each repository and declares the first repository the
winner exactly when its rate exceeds 1.1 times the other's (symmetrically
for the second, otherwise tie); concretely, rates 10 vs 10.5 tie and 10 vs
11.5 go to the second repository. -/
theorem comparison_outcome :
    (∀ (now : Int) (r1 r2 : RepoFacts),
      (compareRepositories now r1 r2).starsPerDay1 =
        (r1.stargazers_count : ℚ) / max ((repoAgeDays now r1.created_at : Int) : ℚ) 1 ∧
      (compareRepositories now r1 r2).starsPerDay2 =
        (r2.stargazers_count : ℚ) / max ((repoAgeDays now r2.created_at : Int) : ℚ) 1 ∧
      ((compareRepositories now r1 r2).winner = Winner.repo1 ↔
        (compareRepositories now r1 r2).starsPerDay1 >
          (compareRepositories now r1 r2).starsPerDay2 * (11 / 10)) ∧
      ((compareRepositories now r1 r2).winner = Winner.repo2 ↔
        (compareRepositories now r1 r2).starsPerDay2 >
          (compareRepositories now r1 r2).starsPerDay1 * (11 / 10))) ∧
    (compareRepositories 172800000 ⟨10, 86400000⟩ ⟨21, 0⟩).starsPerDay1 = 10 ∧
    (compareRepositories 172800000 ⟨10, 86400000⟩ ⟨21, 0⟩).starsPerDay2 = 21 / 2 ∧
    (compareRepositories 172800000 ⟨10, 86400000⟩ ⟨21, 0⟩).winner = Winner.tie ∧
    (compareRepositories 172800000 ⟨10, 86400000⟩ ⟨23, 0⟩).starsPerDay2 = 23 / 2 ∧
    (compareRepositories 172800000 ⟨10, 86400000⟩ ⟨23, 0⟩).winner = Winner.repo2 := by
  constructor
  · intro now r1 r2
    have hnn1 : (0 : ℚ) ≤ (compareRepositories now r1 r2).starsPerDay1 := by
      simp only [compareRepositories]
      apply div_nonneg (Nat.cast_nonneg _)
      exact le_trans zero_le_one (le_max_right _ _)
    have hnn2 : (0 : ℚ) ≤ (compareRepositories now r1 r2).starsPerDay2 := by
      simp only [compareRepositories]
      apply div_nonneg (Nat.cast_nonneg _)
      exact le_trans zero_le_one (le_max_right _ _)
    refine ⟨rfl, rfl, ?_, ?_⟩
    · by_cases hA : (compareRepositories now r1 r2).starsPerDay1 >
          (compareRepositories now r1 r2).starsPerDay2 * (11 / 10)
      · simp only [hA, iff_true]
        simp only [compareRepositories] at hA ⊢
        rw [if_pos hA]
      · simp only [hA, iff_false]
        simp only [compareRepositories] at hA ⊢
        rw [if_neg hA]
        split <;> simp
    · by_cases hA : (compareRepositories now r1 r2).starsPerDay1 >
          (compareRepositories now r1 r2).starsPerDay2 * (11 / 10)
      · have hnB : ¬((compareRepositories now r1 r2).starsPerDay2 >
            (compareRepositories now r1 r2).starsPerDay1 * (11 / 10)) := by
          intro hB
          nlinarith [hA, hB, hnn1, hnn2]
        simp only [hnB, iff_false]
        simp only [compareRepositories] at hA ⊢
        rw [if_pos hA]
        simp
      · by_cases hB : (compareRepositories now r1 r2).starsPerDay2 >
            (compareRepositories now r1 r2).starsPerDay1 * (11 / 10)
        · simp only [hB, iff_true]
          simp only [compareRepositories] at hA hB ⊢
          rw [if_neg hA, if_pos hB]
        · simp only [hB, iff_false]
          simp only [compareRepositories] at hA hB ⊢
          rw [if_neg hA, if_neg hB]
          simp
  · have hfd : Int.fdiv 172800000 86400000 = 2 := by decide
    refine ⟨?_, ?_, ?_, ?_, ?_⟩ <;>
      · simp only [compareRepositories, repoAgeDays, msPerDay]
        norm_num [hfd]

/-- C9: on the exact path, with 3 stargazer events in the grid's first week,
0 in the second and 2 in the third, the first three cumulative values are 3,
3 and 5. -/
theorem exact_path_running_sum (stargazers : List Int) (createdAt now : Int)
    (hspan : createdAt + 2 * msPerWeek ≤ now)
    (h1 : countKey stargazers (getWeekKey createdAt) = 3)
    (h2 : countKey stargazers (getWeekKey (createdAt + msPerWeek)) = 0)
    (h3 : countKey stargazers (getWeekKey (createdAt + msPerWeek + msPerWeek)) = 2) :
    ((processStargazersData stargazers createdAt now).map (fun p => p.stars)).take 3 =
      [3, 3, 5] := by
  have hW : (0 : Int) < msPerWeek := by decide
  have hA : createdAt ≤ now := by omega
  have hB : createdAt + msPerWeek ≤ now := by omega
  have hC : createdAt + msPerWeek + msPerWeek ≤ now := by omega
  unfold processStargazersData
  rw [gridFrom_cons hA, gridFrom_cons hB, gridFrom_cons hC, exactBuild_cons,
    exactBuild_cons, exactBuild_cons, h1, h2, h3]
  simp

theorem exact_path_running_sum_witness :
    (0 : Int) + 2 * msPerWeek ≤ 1209600000 ∧
    countKey [0, 0, 0, 1209600000, 1209600000] (getWeekKey 0) = 3 ∧
    countKey [0, 0, 0, 1209600000, 1209600000] (getWeekKey (0 + msPerWeek)) = 0 ∧
    countKey [0, 0, 0, 1209600000, 1209600000] (getWeekKey (0 + msPerWeek + msPerWeek)) = 2 ∧
    ((processStargazersData [0, 0, 0, 1209600000, 1209600000] 0 1209600000).map
      (fun p => p.stars)).take 3 = [3, 3, 5] :=
  ⟨by decide, by decide, by decide, by decide,
    exact_path_running_sum [0, 0, 0, 1209600000, 1209600000] 0 1209600000
      (by decide) (by decide) (by decide) (by decide)⟩

/-- C10: on the estimation path the raw accumulated values are already
non-decreasing, the corrected series (last value forced to
`currentStarCount`) is still non-decreasing, and consequently the backward
smoothing pass changes nothing: the pipeline with the smoothing loop removed
produces the identical series. -/
theorem estimation_smoothing_noop (pow15 : ℚ → ℚ) (commits releases : List Int)
    (currentStars : Nat) (createdAt now : Int) :
    starsNondecr (estRaw pow15 commits releases currentStars createdAt now) ∧
    starsNondecr (interpolateNoSmoothing pow15 commits releases currentStars createdAt now) ∧
    enhancedInterpolateStarHistory pow15 commits releases currentStars createdAt now =
      interpolateNoSmoothing pow15 commits releases currentStars createdAt now :=
  ⟨estRaw_nondecr pow15 commits releases currentStars createdAt now,
    corrected_nondecr pow15 commits releases currentStars createdAt now,
    enhanced_eq_noSmoothing pow15 commits releases currentStars createdAt now⟩
